import Mathlib

/-!
# CaseCompass AI — verification of the server-side integration layer

A shallow embedding of the three TypeScript source files of the repository:
the search route (`POST /search`), the ingest route (`POST /ingest`), and the
bootstrap service (`handleBootstrapping`, `batchUpserts`, `isValidContent`,
`flattenMetadata`, metadata merging).  Strings of document text are embedded
as `List Char`; external services (Pinecone, Voyage embeddings, the PDF
loader) are oracles carried in an environment record, and every external call
the code issues is recorded in a trace.
-/

set_option autoImplicit false

/-- An HTTP response body as produced by the routes: `{"success": true}`,
`{"error": msg}` or `{"results": [...]}`. -/
inductive RespBody (ρ : Type) where
  | success
  | error (msg : String)
  | results (rs : List ρ)
deriving DecidableEq, Repr

/-- An HTTP response: status code plus JSON body. -/
structure Response (ρ : Type) where
  status : Nat
  body : RespBody ρ
deriving DecidableEq, Repr

/-- Metadata of a search result as used by the search route (only the
`title` field is inspected by the code). -/
structure SMeta where
  title : String
deriving DecidableEq, Repr

/-- A result returned by `vectorStore.maxMarginalRelevanceSearch`. -/
structure SearchResult where
  pageContent : List Char
  metadata : SMeta
deriving DecidableEq, Repr

/-- One step of JavaScript `Map` construction: `map.set(k, v)`.  If the key
is already present its value is replaced in place (the key keeps its original
position); otherwise the pair is appended. -/
def mapSet {α : Type} (acc : List (String × α)) (k : String) (v : α) :
    List (String × α) :=
  if acc.any (fun p => p.1 == k) then
    acc.map (fun p => if p.1 == k then (k, v) else p)
  else
    acc ++ [(k, v)]

/-- JavaScript `new Map(pairs)` starting from the entry list `acc`:
inserts the pairs in order with `mapSet`. -/
def jsMapFrom {α : Type} (acc : List (String × α)) (ps : List (String × α)) :
    List (String × α) :=
  ps.foldl (fun a p => mapSet a p.1 p.2) acc

/-- JavaScript `new Map(pairs)` as an entry list in iteration order. -/
def jsMapOfPairs {α : Type} (ps : List (String × α)) : List (String × α) :=
  jsMapFrom [] ps

/-- The deduplication step of the search route:
`Array.from(new Map(retrieved.map(item => [item.metadata.title, item])).values())`. -/
def dedupeByTitle (retrieved : List SearchResult) : List SearchResult :=
  (jsMapOfPairs (retrieved.map (fun item => (item.metadata.title, item)))).map
    Prod.snd

/-- The keys of `ks` that are not in `seen`, appended to `seen` in order of
first occurrence.  Mirrors the key order of `jsMapFrom`. -/
def firstSeenFrom (seen : List String) : List String → List String
  | [] => seen
  | k :: ks => firstSeenFrom (if k ∈ seen then seen else seen ++ [k]) ks

/-- The distinct keys of `ks` in order of first occurrence. -/
def firstSeenKeys (ks : List String) : List String :=
  firstSeenFrom [] ks

theorem mapSet_map_fst {α : Type} (acc : List (String × α)) (k : String)
    (v : α) :
    (mapSet acc k v).map Prod.fst =
      if k ∈ acc.map Prod.fst then acc.map Prod.fst
      else acc.map Prod.fst ++ [k] := by
  unfold mapSet
  have hmem : (acc.any (fun p => p.1 == k)) = true ↔ k ∈ acc.map Prod.fst := by
    simp [List.any_eq_true, List.mem_map]
  by_cases h : k ∈ acc.map Prod.fst
  · rw [if_pos (hmem.2 h), if_pos h, List.map_map]
    apply List.map_congr_left
    intro p _
    by_cases hp : p.1 = k
    · simp [hp]
    · simp [hp]
  · rw [if_neg (fun hc => h (hmem.1 hc)), if_neg h]
    simp

theorem jsMapFrom_map_fst {α : Type} (ps : List (String × α)) :
    ∀ acc : List (String × α),
      (jsMapFrom acc ps).map Prod.fst =
        firstSeenFrom (acc.map Prod.fst) (ps.map Prod.fst) := by
  induction ps with
  | nil => intro acc; rfl
  | cons p ps ih =>
    intro acc
    have h1 : jsMapFrom acc (p :: ps) = jsMapFrom (mapSet acc p.1 p.2) ps := rfl
    rw [h1, ih]
    have h2 : (p :: ps).map Prod.fst = p.1 :: ps.map Prod.fst := rfl
    rw [h2]
    show firstSeenFrom ((mapSet acc p.1 p.2).map Prod.fst) (ps.map Prod.fst) =
      firstSeenFrom
        (if p.1 ∈ acc.map Prod.fst then acc.map Prod.fst
          else acc.map Prod.fst ++ [p.1]) (ps.map Prod.fst)
    rw [mapSet_map_fst]

theorem firstSeenFrom_nodup (ks : List String) :
    ∀ seen : List String, seen.Nodup → (firstSeenFrom seen ks).Nodup := by
  induction ks with
  | nil => intro seen h; exact h
  | cons k ks ih =>
    intro seen h
    show (firstSeenFrom (if k ∈ seen then seen else seen ++ [k]) ks).Nodup
    apply ih
    by_cases hk : k ∈ seen
    · simpa [hk] using h
    · simp only [if_neg hk]
      simpa [List.nodup_append, hk] using h

theorem firstSeenFrom_mem (ks : List String) :
    ∀ seen x, x ∈ firstSeenFrom seen ks ↔ x ∈ seen ∨ x ∈ ks := by
  induction ks with
  | nil => intro seen x; simp [firstSeenFrom]
  | cons k ks ih =>
    intro seen x
    show x ∈ firstSeenFrom (if k ∈ seen then seen else seen ++ [k]) ks ↔ _
    rw [ih]
    by_cases hk : k ∈ seen
    · simp only [if_pos hk, List.mem_cons]
      constructor
      · rintro (h | h)
        · exact Or.inl h
        · exact Or.inr (Or.inr h)
      · rintro (h | h | h)
        · exact Or.inl h
        · exact Or.inl (h ▸ hk)
        · exact Or.inr h
    · simp only [if_neg hk, List.mem_append, List.mem_singleton, List.mem_cons]
      tauto

theorem jsMapFrom_last_wins {α : Type} (ps : List (String × α)) :
    ∀ acc : List (String × α), ∀ e ∈ jsMapFrom acc ps,
      (ps.filter (fun p => p.1 == e.1)).getLast? = some e ∨
        (ps.filter (fun p => p.1 == e.1) = [] ∧ e ∈ acc) := by
  induction ps with
  | nil =>
    intro acc e he
    exact Or.inr ⟨rfl, he⟩
  | cons q ps ih =>
    intro acc e he
    have he' : e ∈ jsMapFrom (mapSet acc q.1 q.2) ps := he
    have hfc : (q :: ps).filter (fun p => p.1 == e.1) =
        if q.1 == e.1 then q :: ps.filter (fun p => p.1 == e.1)
        else ps.filter (fun p => p.1 == e.1) := by
      by_cases hq : q.1 == e.1
      · simp [List.filter_cons, hq]
      · simp [List.filter_cons, hq]
    rcases ih (mapSet acc q.1 q.2) e he' with h | ⟨hnil, hmem⟩
    · left
      rw [hfc]
      by_cases hq : q.1 == e.1
      · rw [if_pos hq]
        rcases hl : ps.filter (fun p => p.1 == e.1) with _ | ⟨b, l⟩
        · rw [hl] at h; exact absurd h (by simp)
        · rw [hl] at h
          rw [hl, List.getLast?_cons_cons]
          exact h
      · rw [if_neg hq]; exact h
    · unfold mapSet at hmem
      by_cases hany : acc.any (fun p => p.1 == q.1)
      · rw [if_pos hany] at hmem
        rcases List.mem_map.1 hmem with ⟨p, hp, hpe⟩
        by_cases hpq : (p.1 == q.1) = true
        · rw [if_pos hpq] at hpe
          left
          subst hpe
          rw [hfc, if_pos (by simp), hnil]
          rfl
        · rw [if_neg hpq] at hpe
          right
          subst hpe
          have hq : ¬ (q.1 == p.1) = true := fun hc =>
            hpq (beq_iff_eq.mpr (beq_iff_eq.mp hc).symm)
          rw [hfc, if_neg hq]
          exact ⟨hnil, hp⟩
      · rw [if_neg hany] at hmem
        rcases List.mem_append.1 hmem with hp | hp
        · right
          have hq : ¬ (q.1 == e.1) = true := by
            intro hc
            apply hany
            exact List.any_eq_true.2
              ⟨e, hp, beq_iff_eq.mpr (beq_iff_eq.mp hc).symm⟩
          rw [hfc, if_neg hq]
          exact ⟨hnil, hp⟩
        · left
          have hpe : e = q := by simpa using hp
          subst hpe
          rw [hfc, if_pos (by simp), hnil]
          rfl

theorem jsMapOfPairs_last_wins {α : Type} (ps : List (String × α)) :
    ∀ e ∈ jsMapOfPairs ps,
      (ps.filter (fun p => p.1 == e.1)).getLast? = some e := by
  intro e he
  rcases jsMapFrom_last_wins ps [] e he with h | ⟨_, hmem⟩
  · exact h
  · exact absurd hmem (List.not_mem_nil e)

theorem jsMapOfPairs_mem {α : Type} (ps : List (String × α)) :
    ∀ e ∈ jsMapOfPairs ps, e ∈ ps := by
  intro e he
  have h := jsMapOfPairs_last_wins ps e he
  have hmem : e ∈ ps.filter (fun p => p.1 == e.1) := by
    generalize hL : ps.filter (fun p => p.1 == e.1) = L at h ⊢
    rcases List.mem_getLast?_eq_getLast (Option.mem_def.mpr h) with ⟨hne, hl⟩
    rw [hl]
    exact List.getLast_mem hne
  exact List.mem_of_mem_filter hmem

theorem jsMapOfPairs_fst {α : Type} (ps : List (String × α)) :
    (jsMapOfPairs ps).map Prod.fst = firstSeenKeys (ps.map Prod.fst) :=
  jsMapFrom_map_fst ps []

theorem firstSeenKeys_nodup (ks : List String) : (firstSeenKeys ks).Nodup :=
  firstSeenFrom_nodup ks [] List.nodup_nil

theorem firstSeenKeys_mem (ks : List String) (x : String) :
    x ∈ firstSeenKeys ks ↔ x ∈ ks := by
  rw [firstSeenKeys, firstSeenFrom_mem]
  simp

/-- Every entry of the title-keyed map built by the search route stores a
result whose title is its key. -/
theorem dedupe_entry_title (retrieved : List SearchResult) :
    ∀ e ∈ jsMapOfPairs
        (retrieved.map (fun item => (item.metadata.title, item))),
      e.2.metadata.title = e.1 := by
  intro e he
  rcases List.mem_map.1 (jsMapOfPairs_mem _ e he) with ⟨i, _, hi⟩
  rw [← hi]

theorem dedupeByTitle_titles (retrieved : List SearchResult) :
    (dedupeByTitle retrieved).map (fun r => r.metadata.title) =
      firstSeenKeys (retrieved.map (fun r => r.metadata.title)) := by
  have h1 : (dedupeByTitle retrieved).map (fun r => r.metadata.title) =
      (jsMapOfPairs (retrieved.map (fun item => (item.metadata.title, item)))).map
        (fun e => e.2.metadata.title) := by
    rw [dedupeByTitle, List.map_map]
    rfl
  rw [h1, List.map_congr_left (fun e he => dedupe_entry_title retrieved e he),
    jsMapOfPairs_fst, List.map_map]
  rfl

theorem dedupeByTitle_titles_nodup (retrieved : List SearchResult) :
    ((dedupeByTitle retrieved).map (fun r => r.metadata.title)).Nodup := by
  rw [dedupeByTitle_titles]
  exact firstSeenKeys_nodup _

theorem dedupeByTitle_last_wins (retrieved : List SearchResult) :
    ∀ r ∈ dedupeByTitle retrieved,
      (retrieved.filter
        (fun x => x.metadata.title == r.metadata.title)).getLast? = some r := by
  intro r hr
  rcases List.mem_map.1 hr with ⟨e, he, her⟩
  have hlast := jsMapOfPairs_last_wins _ e he
  have htitle := dedupe_entry_title retrieved e he
  rw [List.filter_map] at hlast
  rw [List.getLast?_map] at hlast
  rcases Option.map_eq_some'.1 hlast with ⟨i, hi, hgi⟩
  have hi2 : i = e.2 := congrArg Prod.snd hgi
  rw [← her, htitle]
  have hi' : (List.filter (fun x => x.metadata.title == e.1)
      retrieved).getLast? = some i := hi
  rw [hi', hi2]

/-! ## Data model of the bootstrap service -/

/-- Metadata of a document as produced by the PDF loader: the source path,
the `pdf` block (of which only `pageCount` is inspected) and the `loc`
block (only ever deleted). -/
structure RawMeta where
  source : String
  pdf : Option Nat
  loc : Option String
deriving DecidableEq, Repr

/-- A document as returned by `DirectoryLoader.load`. -/
structure RawDoc where
  pageContent : List Char
  metadata : RawMeta
deriving DecidableEq, Repr

/-- A metadata record of the side file `docs/db.json`, keyed by filename. -/
structure FileMeta where
  filename : String
  title : String
deriving DecidableEq, Repr

/-- Document metadata after the per-file merge step of `handleBootstrapping`:
the loader fields plus the optional fields copied from the matching
`db.json` record and the copied page content. -/
structure DocMeta where
  source : String
  pdf : Option Nat
  loc : Option String
  filename : Option String
  title : Option String
  pageContent : Option (List Char)
deriving DecidableEq, Repr

/-- A document after the metadata merge, before splitting. -/
structure BDoc where
  pageContent : List Char
  metadata : DocMeta
deriving DecidableEq, Repr

/-- Metadata after `flattenMetadata`: `pdf` is folded into `totalPages` and
removed, `loc` is removed. -/
structure FlatMeta where
  source : String
  filename : Option String
  title : Option String
  pageContent : Option (List Char)
  totalPages : Option Nat
deriving DecidableEq, Repr

/-- Metadata of an upserted vector: the flattened metadata with the
generated identifier and the trimmed chunk content written over it. -/
structure VecMeta where
  source : String
  filename : Option String
  title : Option String
  totalPages : Option Nat
  id : String
  pageContent : List Char
deriving DecidableEq, Repr

/-- A vector record sent to `index.upsert`.  The `values` component is
`embeddings[index]`, which in the source may be `undefined` when the
provider returned fewer embeddings than requested. -/
structure Vector where
  id : String
  values : Option (List Int)
  metadata : VecMeta
deriving DecidableEq, Repr

/-- Outcome of one `voyageEmbeddings.embedDocuments` call: the provider
either throws or returns a list of embeddings. -/
inductive EmbedOutcome where
  | throws
  | ok (embeds : List (List Int))
deriving DecidableEq, Repr

/-- A failure thrown during index setup or document loading, as
distinguished by the outer catch of `handleBootstrapping`: a connectivity
timeout (`UND_ERR_CONNECT_TIMEOUT`) or any other error. -/
inductive BootThrow where
  | timeout
  | generic
deriving DecidableEq, Repr

/-- An external call issued by the code, recorded in a trace. -/
inductive ExtCall where
  | createIndex (targetIndex : String)
  | hasVectors (targetIndex : String)
  | embed (texts : List (List Char))
  | upsert (targetIndex : String) (vecs : List Vector)
  | mmrSearch (query : List Char) (k fetchK : Nat)
deriving DecidableEq, Repr

/-- Is the call an embeddings-provider call? -/
def ExtCall.isEmbedCall : ExtCall → Bool
  | .embed _ => true
  | _ => false

/-- Is the call a vector-store upsert? -/
def ExtCall.isUpsertCall : ExtCall → Bool
  | .upsert _ _ => true
  | _ => false

/-- The vectors carried by an upsert call (empty for any other call). -/
def ExtCall.upsertVecs : ExtCall → List Vector
  | .upsert _ vecs => vecs
  | _ => []

/-- The environment a request runs in: the configuration read from
`process.env` and oracles for every external service and source of
randomness. -/
structure Env where
  pineconeApiKey : Option String
  pineconeIndexCfg : Option String
  voyageApiKey : Option String
  mmr : List Char → Option (List SearchResult)
  documents : List RawDoc
  dbMetadata : List FileMeta
  indexHasVectors : String → Bool
  setupFailure : Option BootThrow
  uuid : Nat → String
  embedOutcome : Nat → EmbedOutcome
  upsertOk : Nat → Nat → Bool

/-! ## The search route -/

/-- JavaScript truthiness of the `query` field of the request body:
`!query` holds when the field is absent or the empty string. -/
def queryFalsy : Option (List Char) → Bool
  | none => true
  | some s => s.isEmpty

/-- The `POST` handler of the search route: validates the query, checks the
three environment variables, performs the max-marginal-relevance search with
`k = 20`, `fetchK = 100`, and deduplicates the results by title.  Returns
the HTTP response together with the trace of external calls made. -/
def searchPOST (env : Env) (query : Option (List Char)) :
    Response SearchResult × List ExtCall :=
  if queryFalsy query then
    (⟨400, .error "Query is required"⟩, [])
  else if env.pineconeApiKey.isNone then
    (⟨500, .error "Error searching for query"⟩, [])
  else if env.pineconeIndexCfg.isNone then
    (⟨500, .error "Error searching for query"⟩, [])
  else if env.voyageApiKey.isNone then
    (⟨500, .error "Error searching for query"⟩, [])
  else
    match env.mmr (query.getD []) with
    | none =>
        (⟨500, .error "Error searching for query"⟩,
          [ExtCall.mmrSearch (query.getD []) 20 100])
    | some retrieved =>
        (⟨200, .results (dedupeByTitle retrieved)⟩,
          [ExtCall.mmrSearch (query.getD []) 20 100])

/-! ## The bootstrap service -/

/-- JavaScript `String.prototype.trim`: leading and trailing whitespace
removed. -/
def trimChars (s : List Char) : List Char :=
  ((s.dropWhile Char.isWhitespace).reverse.dropWhile Char.isWhitespace).reverse

/-- `isValidContent`: the content is a non-empty string whose trimmed form
has positive length below 8192. -/
def isValidContent (pageContent : List Char) : Bool :=
  if pageContent.isEmpty then false
  else
    decide (0 < (trimChars pageContent).length ∧
      (trimChars pageContent).length < 8192)

/-- `path.basename`: the last path component. -/
def basename (p : String) : String :=
  (p.splitOn "/").getLastD p

/-- The loader metadata viewed as merged metadata with no `db.json`
fields set. -/
def rawToDocMeta (m : RawMeta) : DocMeta :=
  { source := m.source, pdf := m.pdf, loc := m.loc,
    filename := none, title := none, pageContent := none }

/-- The per-document metadata merge of `handleBootstrapping`: the first
`db.json` record whose `filename` equals the basename of the document's
source path is spread over the document metadata, together with a copy of
the page content; with no matching record the metadata is unchanged. -/
def mergeMeta (dbMeta : List FileMeta) (d : RawDoc) : BDoc :=
  match dbMeta.find? (fun meta => meta.filename == basename d.metadata.source)
    with
  | some fm =>
      ⟨d.pageContent,
        { rawToDocMeta d.metadata with
            filename := some fm.filename, title := some fm.title,
            pageContent := some d.pageContent }⟩
  | none => ⟨d.pageContent, rawToDocMeta d.metadata⟩

/-- `flattenMetadata`: when a `pdf` block with a truthy `pageCount` is
present its page count becomes `totalPages`; the `pdf` and `loc` entries
are removed. -/
def flattenMetadata (m : DocMeta) : FlatMeta :=
  { source := m.source, filename := m.filename, title := m.title,
    pageContent := m.pageContent,
    totalPages := m.pdf.bind (fun n => if n = 0 then none else some n) }

/-- Modelled from the spec: the `RecursiveCharacterTextSplitter` configured
with `chunkSize := 1000, chunkOverlap := 200` is third-party library code
not present in the repository.  Per the spec a chunk is a bounded-length
substring of the document text of at most 1000 characters with a
200-character overlap between neighbors, so the text is cut into windows of
width 1000 at stride 800. -/
def splitText (s : List Char) : List (List Char) :=
  if s.length ≤ 1000 then [s]
  else s.take 1000 :: splitText (s.drop 800)
termination_by s.length
decreasing_by
  simp only [List.length_drop]
  omega

/-- `splitter.splitDocuments`: each document is split into chunks, each
chunk carrying the parent document's metadata. -/
def splitDocuments (docs : List BDoc) : List BDoc :=
  docs.flatMap (fun d =>
    (splitText d.pageContent).map (fun c => ⟨c, d.metadata⟩))

/-- The consecutive slices `vectors.slice(i, i + batchSize)` taken by the
batching loops.  The source's loop does not terminate for a zero batch
size and is only ever invoked with positive sizes; the zero case here
returns the empty list so that the function is total. -/
def sliceBatches {α : Type} (batchSize : Nat) (l : List α) : List (List α) :=
  if hl : l.isEmpty then []
  else if h0 : batchSize = 0 then []
  else l.take batchSize :: sliceBatches batchSize (l.drop batchSize)
termination_by l.length
decreasing_by
  have hpos : 0 < l.length := by
    cases l with
    | nil => simp at hl
    | cons a t => simp
  simp only [List.length_drop]
  omega

/-- The loop body of `batchUpserts` from sub-batch `j` on: each group is
upserted in turn; a failing upsert throws, so later groups are not
attempted.  Returns the upsert calls issued (the failing attempt included)
and whether the run completed. -/
def upsertRun (ok : Nat → Bool) (targetIndex : String) :
    Nat → List (List Vector) → List ExtCall × Bool
  | _, [] => ([], true)
  | j, g :: gs =>
    if ok j then
      let r := upsertRun ok targetIndex (j + 1) gs
      (ExtCall.upsert targetIndex g :: r.1, r.2)
    else
      ([ExtCall.upsert targetIndex g], false)

/-- `batchUpserts`: slices `vectors` into consecutive groups of at most
`batchSize` and upserts each group in order (`ok` tells which upsert calls
the store accepts). -/
def batchUpserts (ok : Nat → Bool) (targetIndex : String)
    (vectors : List Vector) (batchSize : Nat) : List ExtCall × Bool :=
  upsertRun ok targetIndex 0 (sliceBatches batchSize vectors)

/-- A document of `castedBatch`: trimmed content, flattened metadata with
the generated identifier and the trimmed content written over it. -/
structure CastDoc where
  pageContent : List Char
  metadata : VecMeta
deriving DecidableEq, Repr

/-- One element of `castedBatch` built from the `j`-th valid split of the
batch (`uuidv4()` is the oracle `env.uuid` applied to the running count of
identifiers generated so far). -/
def castSplit (env : Env) (uuidStart : Nat) (j : Nat) (split : BDoc) :
    CastDoc :=
  let flat := flattenMetadata split.metadata
  { pageContent := trimChars split.pageContent,
    metadata :=
      { source := flat.source, filename := flat.filename, title := flat.title,
        totalPages := flat.totalPages, id := env.uuid (uuidStart + j),
        pageContent := trimChars split.pageContent } }

/-- `validBatch`: the splits of one batch with valid content. -/
def validBatchOf (batch : List BDoc) : List BDoc :=
  batch.filter (fun s => isValidContent s.pageContent)

/-- `castedBatch`: the valid splits of one batch, cast with trimmed content
and flattened metadata carrying fresh identifiers. -/
def castedBatchOf (env : Env) (uuidStart : Nat) (batch : List BDoc) :
    List CastDoc :=
  (validBatchOf batch).enum.map (fun p => castSplit env uuidStart p.1 p.2)

/-- The text list handed to `embedDocuments`: the (already trimmed) page
contents of `castedBatch`, trimmed once more as in the source. -/
def embedReq (env : Env) (uuidStart : Nat) (batch : List BDoc) :
    List (List Char) :=
  ((castedBatchOf env uuidStart batch).map (fun s => s.pageContent)).map
    trimChars

/-- The vector records built from `castedBatch` and the embeddings: the
`index`-th embedding is looked up positionally and may be absent when the
provider returned fewer embeddings than requested. -/
def vectorsOf (env : Env) (uuidStart : Nat) (batch : List BDoc)
    (embeds : List (List Int)) : List Vector :=
  (castedBatchOf env uuidStart batch).enum.map
    (fun p => ({ id := p.2.metadata.id, values := embeds[p.1]?,
                 metadata := p.2.metadata } : Vector))

/-- One iteration of the ingestion batch loop (batch number `bi`,
`uuidStart` identifiers generated before it): filters the batch for valid
content, builds `castedBatch`, requests embeddings, and — when embeddings
arrive, the list is non-empty and the Pinecone key is set — upserts the
vectors in sub-batches of 2.  Every failure inside the loop body is caught,
so the returned value is just the trace of external calls attempted. -/
def processBatch (env : Env) (targetIndex : String) (bi uuidStart : Nat)
    (batch : List BDoc) : List ExtCall :=
  if (validBatchOf batch).length = 0 then []
  else
    match env.embedOutcome bi with
    | .throws => [ExtCall.embed (embedReq env uuidStart batch)]
    | .ok embeds =>
      if embeds.length = 0 then [ExtCall.embed (embedReq env uuidStart batch)]
      else if env.pineconeApiKey.isNone then
        [ExtCall.embed (embedReq env uuidStart batch)]
      else
        ExtCall.embed (embedReq env uuidStart batch) ::
          (batchUpserts (env.upsertOk bi) targetIndex
            (vectorsOf env uuidStart batch embeds) 2).1

/-- The number of valid splits in a batch (identifiers consumed by it). -/
def countValid (batch : List BDoc) : Nat :=
  (validBatchOf batch).length

/-- The ingestion batch loop from batch number `bi` on, `n` identifiers
already generated: each batch is processed exactly once, in order,
regardless of failures in other batches. -/
def processBatchesFrom (env : Env) (targetIndex : String) :
    Nat → Nat → List (List BDoc) → List ExtCall
  | _, _, [] => []
  | bi, n, b :: bs =>
      processBatch env targetIndex bi n b ++
        processBatchesFrom env targetIndex (bi + 1) (n + countValid b) bs

/-- The batch size of the ingestion loop. -/
def BATCH_SIZE : Nat := 5

/-- `validDocuments`: the loaded documents with valid content. -/
def validDocs (env : Env) : List RawDoc :=
  env.documents.filter (fun doc => isValidContent doc.pageContent)

/-- The valid documents after the metadata merge. -/
def mergedDocs (env : Env) : List BDoc :=
  (validDocs env).map (mergeMeta env.dbMetadata)

/-- The chunks the ingestion run feeds to the batch loop. -/
def bootSplits (env : Env) : List BDoc :=
  splitDocuments (mergedDocs env)

/-- `handleBootstrapping`: ensures the index exists, returns success early
when it already holds vectors, answers 400 when no documents were loaded,
otherwise runs the batch loop and returns success; a failure thrown during
setup or loading is mapped to 504 (connectivity timeout) or 500 (any other
error) by the outer catch. -/
def handleBootstrapping (env : Env) (targetIndex : String) :
    Response SearchResult × List ExtCall :=
  match env.setupFailure with
  | some .timeout =>
      (⟨504, .error "Operation timed out - please try again"⟩, [])
  | some .generic =>
      (⟨500, .error "Bootstrap procedure failed"⟩, [])
  | none =>
    let c0 := [ExtCall.createIndex targetIndex, ExtCall.hasVectors targetIndex]
    if env.indexHasVectors targetIndex then
      (⟨200, .success⟩, c0)
    else if env.documents.length = 0 then
      (⟨400, .error "No documents found in the docs directory"⟩, c0)
    else
      (⟨200, .success⟩,
        c0 ++ processBatchesFrom env targetIndex 0 0
          (sliceBatches BATCH_SIZE (bootSplits env)))

/-- The `POST` handler of the ingest route: awaits `handleBootstrapping`
and then returns `{"success": true}` with status 200.  The response value
produced by `handleBootstrapping` is discarded. -/
def ingestPOST (env : Env) (targetIndex : String) :
    Response SearchResult × List ExtCall :=
  let r := handleBootstrapping env targetIndex
  (⟨200, .success⟩, r.2)

/-! ## Claims about the search route -/

/-- Two retrieved chunks carrying the same title, as in the spec's
`"Smith v. Jones"` example. -/
def smithA : SearchResult := ⟨['a'], ⟨"Smith v. Jones"⟩⟩

/-- The second chunk with the same title but different content. -/
def smithB : SearchResult := ⟨['b'], ⟨"Smith v. Jones"⟩⟩

/-- An environment with all keys configured whose similarity search
returns the two same-titled results. -/
def sampleEnv : Env :=
  { pineconeApiKey := some "pk", pineconeIndexCfg := some "case-index",
    voyageApiKey := some "vk",
    mmr := fun _ => some [smithA, smithB],
    documents := [], dbMetadata := [],
    indexHasVectors := fun _ => false, setupFailure := none,
    uuid := fun _ => "u", embedOutcome := fun _ => .ok [],
    upsertOk := fun _ _ => true }

/-- C10: a request whose `query` field is present but equal to the empty
string gets the same 400 "Query is required" response as an absent query
field, and no external call is made: the route's truthiness check rejects
every falsy query value, not only a missing one. -/
theorem empty_query_rejected (env : Env) :
    searchPOST env (some []) =
        (⟨400, RespBody.error "Query is required"⟩, []) ∧
      searchPOST env (some []) = searchPOST env none :=
  ⟨rfl, rfl⟩

/-- C2 counterexample: on two results sharing the title `"Smith v. Jones"`
the search route's deduplication retains the second occurrence, not the
first: `new Map` overwrites the value stored under an existing key. -/
theorem dedupe_keeps_last_not_first :
    dedupeByTitle [smithA, smithB] = [smithB] ∧ smithA ≠ smithB ∧
      smithA.metadata.title = smithB.metadata.title := by
  refine ⟨by decide, by decide, rfl⟩

/-- C2 (amended): the deduplication preserves first-seen title order, but
among several results sharing a title the last occurrence is the one
retained (its value is stored at the position of the title's first
occurrence). -/
theorem dedupe_first_seen_order_last_wins (retrieved : List SearchResult) :
    (dedupeByTitle retrieved).map (fun r => r.metadata.title) =
        firstSeenKeys (retrieved.map (fun r => r.metadata.title)) ∧
      ∀ r ∈ dedupeByTitle retrieved,
        (retrieved.filter
          (fun x => x.metadata.title == r.metadata.title)).getLast? =
          some r :=
  ⟨dedupeByTitle_titles retrieved, dedupeByTitle_last_wins retrieved⟩

/-- C4: for every non-empty query, when the similarity search succeeds the
route answers 200 with the deduplicated results, no two of which share a
title, and every title occurring among the retrieved results occurs on
exactly one returned result. -/
theorem search_results_unique_titles (env : Env) (q : List Char)
    (retrieved : List SearchResult) (hq : q ≠ [])
    (hk1 : env.pineconeApiKey.isSome = true)
    (hk2 : env.pineconeIndexCfg.isSome = true)
    (hk3 : env.voyageApiKey.isSome = true)
    (hm : env.mmr q = some retrieved) :
    (searchPOST env (some q)).1 =
        ⟨200, RespBody.results (dedupeByTitle retrieved)⟩ ∧
      ((dedupeByTitle retrieved).map (fun r => r.metadata.title)).Nodup ∧
      ∀ t ∈ retrieved.map (fun r => r.metadata.title),
        ((dedupeByTitle retrieved).map
          (fun r => r.metadata.title)).count t = 1 := by
  have hfal : queryFalsy (some q) = false := by
    cases q with
    | nil => exact absurd rfl hq
    | cons a t => rfl
  obtain ⟨a1, e1⟩ := Option.isSome_iff_exists.1 hk1
  obtain ⟨a2, e2⟩ := Option.isSome_iff_exists.1 hk2
  obtain ⟨a3, e3⟩ := Option.isSome_iff_exists.1 hk3
  refine ⟨?_, dedupeByTitle_titles_nodup retrieved, ?_⟩
  · simp [searchPOST, hfal, e1, e2, e3, hm]
  · intro t ht
    apply List.count_eq_one_of_mem (dedupeByTitle_titles_nodup retrieved)
    rw [dedupeByTitle_titles, firstSeenKeys_mem]
    exact ht

/-- C4 witness: the `"Smith v. Jones"` example evaluated. -/
theorem search_results_unique_titles_witness :
    (searchPOST sampleEnv (some ['b'])).1 =
        ⟨200, RespBody.results (dedupeByTitle [smithA, smithB])⟩ ∧
      ((dedupeByTitle [smithA, smithB]).map
        (fun r => r.metadata.title)).Nodup ∧
      ∀ t ∈ [smithA, smithB].map (fun r => r.metadata.title),
        ((dedupeByTitle [smithA, smithB]).map
          (fun r => r.metadata.title)).count t = 1 :=
  search_results_unique_titles sampleEnv ['b'] [smithA, smithB]
    (by decide) rfl rfl rfl rfl

/-! ## Claims about chunking -/

theorem splitText_le_1000 (s : List Char) :
    ∀ c ∈ splitText s, c.length ≤ 1000 := by
  induction s using splitText.induct with
  | case1 s h =>
    intro c hc
    rw [splitText, if_pos h] at hc
    simp at hc
    subst hc
    exact h
  | case2 s h ih =>
    intro c hc
    rw [splitText, if_neg h] at hc
    rcases List.mem_cons.1 hc with h1 | h1
    · subst h1; simp
    · exact ih c h1

theorem splitText_get_eq (s : List Char) :
    ∀ (j : Nat) (h : j < (splitText s).length),
      (splitText s).get ⟨j, h⟩ = (s.drop (800 * j)).take 1000 := by
  induction s using splitText.induct with
  | case1 s h =>
    intro j hj
    have hj1 : j < 1 := by
      rw [splitText, if_pos h] at hj
      simpa using hj
    have hj0 : j = 0 := by omega
    subst hj0
    have hget : (splitText s).get ⟨0, hj⟩ = s := by
      have hsp : splitText s = [s] := by rw [splitText, if_pos h]
      simp [hsp]
    rw [hget, List.drop_zero, List.take_of_length_le h]
  | case2 s h ih =>
    intro j hj
    have hsp : splitText s = s.take 1000 :: splitText (s.drop 800) := by
      rw [splitText, if_neg h]
    cases j with
    | zero =>
      have hget : (splitText s).get ⟨0, hj⟩ = s.take 1000 := by
        simp [hsp]
      rw [hget, Nat.mul_zero, List.drop_zero]
    | succ j =>
      have hj' : j < (splitText (s.drop 800)).length := by
        rw [hsp] at hj
        simpa using hj
      have hget : (splitText s).get ⟨j + 1, hj⟩ =
          (splitText (s.drop 800)).get ⟨j, hj'⟩ := by
        simp [hsp]
      rw [hget, ih j hj', List.drop_drop]
      have harith : 800 + 800 * j = 800 * (j + 1) := by ring
      rw [harith]

theorem splitText_count (s : List Char) :
    ∀ j, j + 1 < (splitText s).length → 800 * (j + 1) + 200 < s.length := by
  induction s using splitText.induct with
  | case1 s h =>
    intro j hj
    rw [splitText, if_pos h] at hj
    simp at hj
  | case2 s h ih =>
    intro j hj
    rw [splitText, if_neg h, List.length_cons] at hj
    cases j with
    | zero => omega
    | succ j =>
      have hj' : j + 1 < (splitText (s.drop 800)).length := by omega
      have hlen := ih j hj'
      rw [List.length_drop] at hlen
      omega

/-- C9: every chunk produced by the splitter has length at most 1000, and
each chunk having a successor overlaps it in exactly its final 200
characters: dropping the 800-character stride from chunk `j` yields
precisely the first 200 characters of chunk `j + 1`.  The final chunk is
exempt as it need not reach the full width. -/
theorem chunking_bounds (s : List Char) (j : Nat)
    (h : j + 1 < (splitText s).length) :
    (∀ c ∈ splitText s, c.length ≤ 1000) ∧
      ((splitText s).get ⟨j, Nat.lt_of_succ_lt h⟩).drop 800 =
        ((splitText s).get ⟨j + 1, h⟩).take 200 ∧
      (((splitText s).get ⟨j, Nat.lt_of_succ_lt h⟩).drop 800).length =
        200 := by
  have hc := splitText_count s j h
  rw [splitText_get_eq s j (Nat.lt_of_succ_lt h), splitText_get_eq s (j + 1) h]
  have hstep : (s.drop (800 * j)).drop 800 = s.drop (800 * (j + 1)) := by
    rw [List.drop_drop]
    have harith : 800 * j + 800 = 800 * (j + 1) := by ring
    rw [harith]
  refine ⟨splitText_le_1000 s, ?_, ?_⟩
  · rw [List.drop_take, hstep, List.take_take]
    norm_num
  · rw [List.drop_take, hstep, List.length_take, List.length_drop]
    omega

/-- C9 witness: a 1001-character text splits into two chunks obeying the
bounds. -/
theorem chunking_bounds_witness :
    (0 + 1 < (splitText (List.replicate 1001 'a')).length) ∧
      (∀ c ∈ splitText (List.replicate 1001 'a'), c.length ≤ 1000) ∧
      ∀ h : 0 + 1 < (splitText (List.replicate 1001 'a')).length,
        ((splitText (List.replicate 1001 'a')).get
            ⟨0, Nat.lt_of_succ_lt h⟩).drop 800 =
          ((splitText (List.replicate 1001 'a')).get ⟨0 + 1, h⟩).take 200 ∧
        (((splitText (List.replicate 1001 'a')).get
            ⟨0, Nat.lt_of_succ_lt h⟩).drop 800).length = 200 := by
  have hlen : (splitText (List.replicate 1001 'a')).length = 2 := by
    rw [splitText]
    norm_num
    rw [splitText]
    norm_num
  have hlt : 0 + 1 < (splitText (List.replicate 1001 'a')).length := by
    omega
  refine ⟨hlt, (chunking_bounds (List.replicate 1001 'a') 0 hlt).1,
    fun h => ⟨(chunking_bounds (List.replicate 1001 'a') 0 h).2.1,
      (chunking_bounds (List.replicate 1001 'a') 0 h).2.2⟩⟩

/-! ## Claims about batched upserts -/

theorem sliceBatches_join {α : Type} (batchSize : Nat) (l : List α) :
    0 < batchSize → (sliceBatches batchSize l).flatten = l := by
  induction l using sliceBatches.induct with
  | batchSize => exact batchSize
  | case1 l hl =>
    intro _
    rw [sliceBatches, dif_pos hl]
    exact (List.isEmpty_iff.1 hl).symm
  | case2 l hl h0 =>
    intro hpos
    omega
  | case3 l hl h0 ih =>
    intro hpos
    rw [sliceBatches, dif_neg hl, dif_neg h0, List.flatten]
    rw [ih hpos, List.take_append_drop]

theorem sliceBatches_le {α : Type} (batchSize : Nat) (l : List α) :
    ∀ g ∈ sliceBatches batchSize l, g.length ≤ batchSize := by
  induction l using sliceBatches.induct with
  | batchSize => exact batchSize
  | case1 l hl =>
    intro g hg
    rw [sliceBatches, dif_pos hl] at hg
    exact absurd hg (List.not_mem_nil g)
  | case2 l hl h0 =>
    intro g hg
    rw [sliceBatches, dif_neg hl, dif_pos h0] at hg
    exact absurd hg (List.not_mem_nil g)
  | case3 l hl h0 ih =>
    intro g hg
    rw [sliceBatches, dif_neg hl, dif_neg h0] at hg
    rcases List.mem_cons.1 hg with h1 | h1
    · subst h1
      simp
    · exact ih g h1

theorem upsertRun_all_ok (ok : Nat → Bool) (targetIndex : String)
    (hok : ∀ j, ok j = true) :
    ∀ (gs : List (List Vector)) (j : Nat),
      upsertRun ok targetIndex j gs =
        (gs.map (ExtCall.upsert targetIndex), true) := by
  intro gs
  induction gs with
  | nil => intro j; rfl
  | cons g gs ih =>
    intro j
    simp [upsertRun, hok j, ih (j + 1)]

/-- C7: with every upsert accepted, `batchUpserts` issues one upsert call
per consecutive group, the groups concatenate back to the input (so every
vector lies in exactly one upserted group) and every group has at most
`batchSize` vectors. -/
theorem batchUpserts_partitions (ok : Nat → Bool) (targetIndex : String)
    (vectors : List Vector) (batchSize : Nat) (hbs : 0 < batchSize)
    (hok : ∀ j, ok j = true) :
    (batchUpserts ok targetIndex vectors batchSize).1 =
        (sliceBatches batchSize vectors).map (ExtCall.upsert targetIndex) ∧
      (sliceBatches batchSize vectors).flatten = vectors ∧
      (∀ g ∈ sliceBatches batchSize vectors, g.length ≤ batchSize) ∧
      (batchUpserts ok targetIndex vectors batchSize).2 = true := by
  rw [batchUpserts, upsertRun_all_ok ok targetIndex hok]
  exact ⟨rfl, sliceBatches_join batchSize vectors hbs,
    sliceBatches_le batchSize vectors, rfl⟩

/-- A sample vector record for concrete instantiations. -/
def vecSample (n : Nat) : Vector :=
  { id := "v" ++ toString n, values := some [Int.ofNat n],
    metadata :=
      { source := "docs/a.pdf", filename := none, title := none,
        totalPages := none, id := "v" ++ toString n, pageContent := ['x'] } }

/-- C7 witness: three vectors in sub-batches of two. -/
theorem batchUpserts_partitions_witness :
    (batchUpserts (fun _ => true) "case-index"
          [vecSample 0, vecSample 1, vecSample 2] 2).1 =
        (sliceBatches 2 [vecSample 0, vecSample 1, vecSample 2]).map
          (ExtCall.upsert "case-index") ∧
      (sliceBatches 2 [vecSample 0, vecSample 1, vecSample 2]).flatten =
        [vecSample 0, vecSample 1, vecSample 2] ∧
      (∀ g ∈ sliceBatches 2 [vecSample 0, vecSample 1, vecSample 2],
        g.length ≤ 2) ∧
      (batchUpserts (fun _ => true) "case-index"
        [vecSample 0, vecSample 1, vecSample 2] 2).2 = true :=
  batchUpserts_partitions (fun _ => true) "case-index"
    [vecSample 0, vecSample 1, vecSample 2] 2 (by decide) (fun _ => rfl)

/-! ## Trimming lemmas -/

theorem dropWhile_idem {α : Type} (p : α → Bool) (l : List α) :
    (l.dropWhile p).dropWhile p = l.dropWhile p := by
  induction l with
  | nil => rfl
  | cons a t ih =>
    by_cases h : p a
    · simp [List.dropWhile_cons, h, ih]
    · simp [List.dropWhile_cons, h]

theorem dropWhile_head_false {α : Type} (p : α → Bool) (l : List α) :
    ∀ a t, l.dropWhile p = a :: t → p a = false := by
  induction l with
  | nil => intro a t h; exact absurd h (by simp)
  | cons b l ih =>
    intro a t h
    by_cases hb : p b
    · rw [List.dropWhile_cons, if_pos hb] at h
      exact ih a t h
    · rw [List.dropWhile_cons, if_neg hb] at h
      injection h with h1 h2
      subst h1
      simpa using hb

theorem trim_of_clean (t : List Char)
    (hhead : ∀ a t', t = a :: t' → Char.isWhitespace a = false) :
    trimChars ((t.reverse.dropWhile Char.isWhitespace).reverse) =
      (t.reverse.dropWhile Char.isWhitespace).reverse := by
  have hdecomp : t = (t.reverse.dropWhile Char.isWhitespace).reverse ++
      (t.reverse.takeWhile Char.isWhitespace).reverse := by
    have h1 : t.reverse.takeWhile Char.isWhitespace ++
        t.reverse.dropWhile Char.isWhitespace = t.reverse :=
      List.takeWhile_append_dropWhile Char.isWhitespace t.reverse
    calc t = t.reverse.reverse := (List.reverse_reverse t).symm
      _ = (t.reverse.takeWhile Char.isWhitespace ++
            t.reverse.dropWhile Char.isWhitespace).reverse := by rw [h1]
      _ = (t.reverse.dropWhile Char.isWhitespace).reverse ++
            (t.reverse.takeWhile Char.isWhitespace).reverse := by
            rw [List.reverse_append]
  have hA : ((t.reverse.dropWhile Char.isWhitespace).reverse).dropWhile
      Char.isWhitespace = (t.reverse.dropWhile Char.isWhitespace).reverse := by
    cases hu0 : (t.reverse.dropWhile Char.isWhitespace).reverse with
    | nil => rfl
    | cons a u =>
      have hta : ∃ r, t = a :: r := by
        rw [hdecomp, hu0]
        exact ⟨u ++ (t.reverse.takeWhile Char.isWhitespace).reverse, rfl⟩
      rcases hta with ⟨r, hta⟩
      have hpa : Char.isWhitespace a = false := hhead a r hta
      rw [List.dropWhile_cons, hpa]
      simp
  have hB : ((t.reverse.dropWhile Char.isWhitespace).reverse).reverse.dropWhile
      Char.isWhitespace = t.reverse.dropWhile Char.isWhitespace := by
    rw [List.reverse_reverse]
    exact dropWhile_idem Char.isWhitespace t.reverse
  show ((((t.reverse.dropWhile Char.isWhitespace).reverse).dropWhile
      Char.isWhitespace).reverse.dropWhile Char.isWhitespace).reverse = _
  rw [hA, hB]

theorem trimChars_idem (s : List Char) :
    trimChars (trimChars s) = trimChars s :=
  trim_of_clean (s.dropWhile Char.isWhitespace)
    (fun a t' h => dropWhile_head_false Char.isWhitespace s a t' h)

theorem isValidContent_spec (s : List Char) :
    isValidContent s = true ↔
      0 < (trimChars s).length ∧ (trimChars s).length < 8192 := by
  unfold isValidContent
  by_cases he : s.isEmpty
  · rw [if_pos he]
    have hs : s = [] := List.isEmpty_iff.1 he
    subst hs
    simp [trimChars]
  · rw [if_neg he]
    simp

theorem isValidContent_trim (s : List Char) (h : isValidContent s = true) :
    isValidContent (trimChars s) = true := by
  rw [isValidContent_spec] at h
  rw [isValidContent_spec, trimChars_idem]
  exact h

theorem snd_mem_of_mem_enum {α : Type} {l : List α} {p : Nat × α}
    (h : p ∈ l.enum) : p.2 ∈ l := by
  rcases p with ⟨i, x⟩
  rcases List.mem_enumFrom h with ⟨h1, h2, h3⟩
  rw [h3]
  exact List.getElem_mem _

/-! ## Trace analysis of the ingestion loop -/

theorem vectorsOf_valid (env : Env) (uuidStart : Nat) (batch : List BDoc)
    (embeds : List (List Int)) :
    ∀ v ∈ vectorsOf env uuidStart batch embeds,
      isValidContent v.metadata.pageContent = true := by
  intro v hv
  rcases List.mem_map.1 hv with ⟨p, hp, hpv⟩
  have hc : p.2 ∈ castedBatchOf env uuidStart batch := snd_mem_of_mem_enum hp
  rcases List.mem_map.1 hc with ⟨q, hq, hqc⟩
  have hs : q.2 ∈ validBatchOf batch := snd_mem_of_mem_enum hq
  have hval : isValidContent q.2.pageContent = true :=
    (List.mem_filter.1 hs).2
  have hmeta : v.metadata.pageContent = trimChars q.2.pageContent := by
    rw [← hpv, ← hqc]
    rfl
  rw [hmeta]
  exact isValidContent_trim _ hval

theorem upsertRun_mem (ok : Nat → Bool) (targetIndex : String) :
    ∀ (gs : List (List Vector)) (j : Nat),
      ∀ c ∈ (upsertRun ok targetIndex j gs).1,
        ∃ g ∈ gs, c = ExtCall.upsert targetIndex g := by
  intro gs
  induction gs with
  | nil => intro j c hc; exact absurd hc (List.not_mem_nil c)
  | cons g gs ih =>
    intro j c hc
    simp only [upsertRun] at hc
    by_cases hok : ok j
    · rw [if_pos hok] at hc
      rcases List.mem_cons.1 hc with h | h
      · exact ⟨g, List.mem_cons_self g gs, h⟩
      · rcases ih (j + 1) c h with ⟨g2, hg2, he⟩
        exact ⟨g2, List.mem_cons_of_mem g hg2, he⟩
    · rw [if_neg hok] at hc
      have hce : c = ExtCall.upsert targetIndex g := by simpa using hc
      exact ⟨g, List.mem_cons_self g gs, hce⟩

theorem upsertRun_all_upserts (ok : Nat → Bool) (targetIndex : String) :
    ∀ (gs : List (List Vector)) (j : Nat),
      ∀ c ∈ (upsertRun ok targetIndex j gs).1, c.isUpsertCall = true := by
  intro gs j c hc
  rcases upsertRun_mem ok targetIndex gs j c hc with ⟨g, _, he⟩
  subst he
  rfl

theorem sliceBatches_sub {α : Type} (batchSize : Nat) (l : List α) :
    ∀ g ∈ sliceBatches batchSize l, ∀ x ∈ g, x ∈ l := by
  induction l using sliceBatches.induct with
  | batchSize => exact batchSize
  | case1 l hl =>
    intro g hg
    rw [sliceBatches, dif_pos hl] at hg
    exact absurd hg (List.not_mem_nil g)
  | case2 l hl h0 =>
    intro g hg
    rw [sliceBatches, dif_neg hl, dif_pos h0] at hg
    exact absurd hg (List.not_mem_nil g)
  | case3 l hl h0 ih =>
    intro g hg x hx
    rw [sliceBatches, dif_neg hl, dif_neg h0] at hg
    rcases List.mem_cons.1 hg with h | h
    · subst h
      exact List.take_subset _ _ hx
    · exact List.drop_subset _ _ (ih g h x hx)

theorem processBatch_upsert_valid (env : Env) (targetIndex : String)
    (bi n : Nat) (batch : List BDoc) :
    ∀ c ∈ processBatch env targetIndex bi n batch, ∀ v ∈ c.upsertVecs,
      isValidContent v.metadata.pageContent = true := by
  intro c hc v hv
  rw [processBatch] at hc
  by_cases h1 : (validBatchOf batch).length = 0
  · rw [if_pos h1] at hc
    exact absurd hc (List.not_mem_nil c)
  · rw [if_neg h1] at hc
    cases hout : env.embedOutcome bi with
    | throws =>
      simp only [hout] at hc
      have hce : c = ExtCall.embed (embedReq env n batch) := by simpa using hc
      subst hce
      exact absurd hv (List.not_mem_nil v)
    | ok embeds =>
      simp only [hout] at hc
      by_cases h2 : embeds.length = 0
      · rw [if_pos h2] at hc
        have hce : c = ExtCall.embed (embedReq env n batch) := by
          simpa using hc
        subst hce
        exact absurd hv (List.not_mem_nil v)
      · rw [if_neg h2] at hc
        by_cases h3 : env.pineconeApiKey.isNone
        · rw [if_pos h3] at hc
          have hce : c = ExtCall.embed (embedReq env n batch) := by
            simpa using hc
          subst hce
          exact absurd hv (List.not_mem_nil v)
        · rw [if_neg h3] at hc
          rcases List.mem_cons.1 hc with h | h
          · subst h
            exact absurd hv (List.not_mem_nil v)
          · rw [batchUpserts] at h
            rcases upsertRun_mem (env.upsertOk bi) targetIndex _ 0 c h with
              ⟨g, hg, hce⟩
            subst hce
            have hxv : v ∈ vectorsOf env n batch embeds :=
              sliceBatches_sub 2 _ g hg v (by simpa using hv)
            exact vectorsOf_valid env n batch embeds v hxv

theorem processBatch_no_upsert (env : Env) (targetIndex : String)
    (hk : env.pineconeApiKey = none) (bi n : Nat) (batch : List BDoc) :
    ∀ c ∈ processBatch env targetIndex bi n batch,
      c.isUpsertCall = false := by
  intro c hc
  rw [processBatch] at hc
  by_cases h1 : (validBatchOf batch).length = 0
  · rw [if_pos h1] at hc
    exact absurd hc (List.not_mem_nil c)
  · rw [if_neg h1] at hc
    cases hout : env.embedOutcome bi with
    | throws =>
      simp only [hout] at hc
      have hce : c = ExtCall.embed (embedReq env n batch) := by simpa using hc
      subst hce
      rfl
    | ok embeds =>
      simp only [hout] at hc
      by_cases h2 : embeds.length = 0
      · rw [if_pos h2] at hc
        have hce : c = ExtCall.embed (embedReq env n batch) := by
          simpa using hc
        subst hce
        rfl
      · rw [if_neg h2] at hc
        have h3 : env.pineconeApiKey.isNone = true := by rw [hk]; rfl
        rw [if_pos h3] at hc
        have hce : c = ExtCall.embed (embedReq env n batch) := by
          simpa using hc
        subst hce
        rfl

theorem isUpsert_not_embed (c : ExtCall) (h : c.isUpsertCall = true) :
    c.isEmbedCall = false := by
  cases c <;> first | rfl | exact absurd h (by simp [ExtCall.isUpsertCall])

theorem processBatch_embed_once (env : Env) (targetIndex : String)
    (bi n : Nat) (batch : List BDoc) :
    ((processBatch env targetIndex bi n batch).filter
      ExtCall.isEmbedCall).length ≤ 1 := by
  rw [processBatch]
  by_cases h1 : (validBatchOf batch).length = 0
  · rw [if_pos h1]
    simp
  · rw [if_neg h1]
    cases env.embedOutcome bi with
    | throws => simp [ExtCall.isEmbedCall]
    | ok embeds =>
      simp only []
      by_cases h2 : embeds.length = 0
      · rw [if_pos h2]
        simp [ExtCall.isEmbedCall]
      · rw [if_neg h2]
        by_cases h3 : env.pineconeApiKey.isNone
        · rw [if_pos h3]
          simp [ExtCall.isEmbedCall]
        · rw [if_neg h3]
          have hnil : ((batchUpserts (env.upsertOk bi) targetIndex
              (vectorsOf env n batch embeds) 2).1.filter
              ExtCall.isEmbedCall) = [] := by
            rw [List.filter_eq_nil_iff]
            intro c hc
            rw [batchUpserts] at hc
            have := upsertRun_all_upserts (env.upsertOk bi) targetIndex _ 0
              c hc
            simp [isUpsert_not_embed c this]
          rw [List.filter_cons]
          simp [ExtCall.isEmbedCall, hnil]

theorem processBatchesFrom_no_upsert (env : Env) (targetIndex : String)
    (hk : env.pineconeApiKey = none) :
    ∀ (bs : List (List BDoc)) (bi n : Nat),
      ∀ c ∈ processBatchesFrom env targetIndex bi n bs,
        c.isUpsertCall = false := by
  intro bs
  induction bs with
  | nil => intro bi n c hc; exact absurd hc (List.not_mem_nil c)
  | cons b bs ih =>
    intro bi n c hc
    simp only [processBatchesFrom] at hc
    rcases List.mem_append.1 hc with h | h
    · exact processBatch_no_upsert env targetIndex hk bi n b c h
    · exact ih (bi + 1) (n + countValid b) c h

theorem processBatchesFrom_upsert_valid (env : Env) (targetIndex : String) :
    ∀ (bs : List (List BDoc)) (bi n : Nat),
      ∀ c ∈ processBatchesFrom env targetIndex bi n bs, ∀ v ∈ c.upsertVecs,
        isValidContent v.metadata.pageContent = true := by
  intro bs
  induction bs with
  | nil => intro bi n c hc; exact absurd hc (List.not_mem_nil c)
  | cons b bs ih =>
    intro bi n c hc
    simp only [processBatchesFrom] at hc
    rcases List.mem_append.1 hc with h | h
    · exact processBatch_upsert_valid env targetIndex bi n b c h
    · exact ih (bi + 1) (n + countValid b) c h

theorem handleBootstrapping_trace_cases (env : Env) (targetIndex : String) :
    (handleBootstrapping env targetIndex).2 = [] ∨
      (handleBootstrapping env targetIndex).2 =
        [ExtCall.createIndex targetIndex, ExtCall.hasVectors targetIndex] ∨
      (handleBootstrapping env targetIndex).2 =
        ExtCall.createIndex targetIndex :: ExtCall.hasVectors targetIndex ::
          processBatchesFrom env targetIndex 0 0
            (sliceBatches BATCH_SIZE (bootSplits env)) := by
  unfold handleBootstrapping
  cases env.setupFailure with
  | some bt => cases bt <;> exact Or.inl rfl
  | none =>
    by_cases hv : env.indexHasVectors targetIndex
    · refine Or.inr (Or.inl ?_)
      simp [hv]
    · by_cases hd : env.documents.length = 0
      · refine Or.inr (Or.inl ?_)
        simp [hv, hd]
      · refine Or.inr (Or.inr ?_)
        simp [hv, hd]

theorem handleBootstrapping_no_upsert (env : Env) (targetIndex : String)
    (hk : env.pineconeApiKey = none) :
    ∀ c ∈ (handleBootstrapping env targetIndex).2,
      c.isUpsertCall = false := by
  intro c hc
  rcases handleBootstrapping_trace_cases env targetIndex with h | h | h
  · rw [h] at hc
    exact absurd hc (List.not_mem_nil c)
  · rw [h] at hc
    rcases List.mem_cons.1 hc with h1 | h1
    · subst h1; rfl
    · have h2 : c = ExtCall.hasVectors targetIndex := by simpa using h1
      subst h2; rfl
  · rw [h] at hc
    rcases List.mem_cons.1 hc with h1 | h1
    · subst h1; rfl
    rcases List.mem_cons.1 h1 with h2 | h2
    · subst h2; rfl
    · exact processBatchesFrom_no_upsert env targetIndex hk _ 0 0 c h2

theorem handleBootstrapping_upsert_valid (env : Env) (targetIndex : String) :
    ∀ c ∈ (handleBootstrapping env targetIndex).2, ∀ v ∈ c.upsertVecs,
      isValidContent v.metadata.pageContent = true := by
  intro c hc
  rcases handleBootstrapping_trace_cases env targetIndex with h | h | h
  · rw [h] at hc
    exact absurd hc (List.not_mem_nil c)
  · rw [h] at hc
    rcases List.mem_cons.1 hc with h1 | h1
    · subst h1; intro v hv; exact absurd hv (List.not_mem_nil v)
    · have h2 : c = ExtCall.hasVectors targetIndex := by simpa using h1
      subst h2; intro v hv; exact absurd hv (List.not_mem_nil v)
  · rw [h] at hc
    rcases List.mem_cons.1 hc with h1 | h1
    · subst h1; intro v hv; exact absurd hv (List.not_mem_nil v)
    rcases List.mem_cons.1 h1 with h2 | h2
    · subst h2; intro v hv; exact absurd hv (List.not_mem_nil v)
    · exact processBatchesFrom_upsert_valid env targetIndex _ 0 0 c h2

theorem handleBootstrapping_run (env : Env) (targetIndex : String)
    (hs : env.setupFailure = none)
    (hv : env.indexHasVectors targetIndex = false)
    (hd : env.documents.length ≠ 0) :
    handleBootstrapping env targetIndex =
      (⟨200, RespBody.success⟩,
        ExtCall.createIndex targetIndex :: ExtCall.hasVectors targetIndex ::
          processBatchesFrom env targetIndex 0 0
            (sliceBatches BATCH_SIZE (bootSplits env))) := by
  unfold handleBootstrapping
  rw [hs]
  simp [hv, hd]

theorem upsertRun_fail (ok : Nat → Bool) (targetIndex : String) :
    ∀ (gs : List (List Vector)) (j k : Nat), k < gs.length →
      (∀ i, i < k → ok (j + i) = true) → ok (j + k) = false →
      (upsertRun ok targetIndex j gs).1 =
          (gs.take (k + 1)).map (ExtCall.upsert targetIndex) ∧
        (upsertRun ok targetIndex j gs).2 = false := by
  intro gs
  induction gs with
  | nil =>
    intro j k hk
    simp at hk
  | cons g gs ih =>
    intro j k hk hok hfail
    cases k with
    | zero =>
      have hj : ok j = false := by simpa using hfail
      constructor
      · simp [upsertRun, hj]
      · simp [upsertRun, hj]
    | succ k =>
      have hj : ok j = true := by
        have h0 := hok 0 (Nat.succ_pos k)
        simpa using h0
      have hok2 : ∀ i, i < k → ok (j + 1 + i) = true := by
        intro i hi
        have h1 := hok (i + 1) (by omega)
        rw [show j + (i + 1) = j + 1 + i by omega] at h1
        exact h1
      have hfail2 : ok (j + 1 + k) = false := by
        rw [show j + 1 + k = j + (k + 1) by omega]
        exact hfail
      have hk2 : k < gs.length := by simpa using hk
      rcases ih (j + 1) k hk2 hok2 hfail2 with ⟨h1, h2⟩
      constructor
      · simp only [upsertRun, hj, if_true]
        rw [h1, List.take_succ_cons, List.map_cons]
      · simp only [upsertRun, hj, if_true]
        exact h2

/-! ## Claims about the ingestion orchestrator -/

/-- C5: when the index already holds vectors the orchestrator returns
success immediately after the index checks, with no embedding and no
upsert call in its trace. -/
theorem bootstrap_idempotent (env : Env) (targetIndex : String)
    (hs : env.setupFailure = none)
    (hv : env.indexHasVectors targetIndex = true) :
    handleBootstrapping env targetIndex =
        (⟨200, RespBody.success⟩,
          [ExtCall.createIndex targetIndex,
            ExtCall.hasVectors targetIndex]) ∧
      ∀ c ∈ (handleBootstrapping env targetIndex).2,
        c.isEmbedCall = false ∧ c.isUpsertCall = false := by
  have h1 : handleBootstrapping env targetIndex =
      (⟨200, RespBody.success⟩,
        [ExtCall.createIndex targetIndex, ExtCall.hasVectors targetIndex]) := by
    unfold handleBootstrapping
    rw [hs]
    simp [hv]
  refine ⟨h1, ?_⟩
  rw [h1]
  intro c hc
  rcases List.mem_cons.1 hc with h | h
  · subst h; exact ⟨rfl, rfl⟩
  · have h2 : c = ExtCall.hasVectors targetIndex := by simpa using h
    subst h2
    exact ⟨rfl, rfl⟩

/-- An environment whose index already holds vectors. -/
def envWithVectors : Env :=
  { pineconeApiKey := some "pk", pineconeIndexCfg := some "case-index",
    voyageApiKey := some "vk", mmr := fun _ => none,
    documents := [⟨['h', 'i'], ⟨"docs/a.pdf", none, none⟩⟩],
    dbMetadata := [], indexHasVectors := fun _ => true,
    setupFailure := none, uuid := fun _ => "u",
    embedOutcome := fun _ => EmbedOutcome.ok [[1]],
    upsertOk := fun _ _ => true }

/-- C5 witness: the idempotence check evaluated on a concrete
environment. -/
theorem bootstrap_idempotent_witness :
    handleBootstrapping envWithVectors "case-index" =
        (⟨200, RespBody.success⟩,
          [ExtCall.createIndex "case-index",
            ExtCall.hasVectors "case-index"]) ∧
      ∀ c ∈ (handleBootstrapping envWithVectors "case-index").2,
        c.isEmbedCall = false ∧ c.isUpsertCall = false :=
  bootstrap_idempotent envWithVectors "case-index" rfl rfl

/-- An environment with no PDF documents in the docs directory and an
index without vectors. -/
def envNoDocs : Env :=
  { pineconeApiKey := some "pk", pineconeIndexCfg := some "case-index",
    voyageApiKey := some "vk", mmr := fun _ => none,
    documents := [], dbMetadata := [],
    indexHasVectors := fun _ => false, setupFailure := none,
    uuid := fun _ => "u", embedOutcome := fun _ => EmbedOutcome.ok [[1]],
    upsertOk := fun _ _ => true }

/-- C1 (code bug): for an index with no vectors and an empty docs
directory, `handleBootstrapping` builds the 400 "No documents found"
response, but the ingest route discards that value and answers
`{"success": true}` with status 200; no embedding call is made. -/
theorem ingest_discards_error_response :
    (handleBootstrapping envNoDocs "case-index").1 =
        ⟨400, RespBody.error "No documents found in the docs directory"⟩ ∧
      ingestPOST envNoDocs "case-index" =
        (⟨200, RespBody.success⟩,
          [ExtCall.createIndex "case-index",
            ExtCall.hasVectors "case-index"]) ∧
      ∀ c ∈ (ingestPOST envNoDocs "case-index").2,
        c.isEmbedCall = false := by
  refine ⟨rfl, rfl, ?_⟩
  intro c hc
  rcases List.mem_cons.1 hc with h | h
  · subst h; rfl
  · have h2 : c = ExtCall.hasVectors "case-index" := by simpa using h
    subst h2
    rfl

/-- An environment with the Pinecone API key missing but a valid document
present and an index without vectors. -/
def envNoPineconeKey : Env :=
  { pineconeApiKey := none, pineconeIndexCfg := some "case-index",
    voyageApiKey := some "vk", mmr := fun _ => none,
    documents := [⟨['h', 'i'], ⟨"docs/a.pdf", none, none⟩⟩],
    dbMetadata := [], indexHasVectors := fun _ => false,
    setupFailure := none, uuid := fun _ => "u",
    embedOutcome := fun _ => EmbedOutcome.ok [[1]],
    upsertOk := fun _ _ => true }

/-- C3 counterexample: with the required `PINECONE_API_KEY` missing, the
ingestion run still performs external calls — the index setup calls and an
embeddings-provider call — before the missing-key error is thrown inside
the batch loop, where it is caught; the operation then reports success
rather than failing. -/
theorem missing_key_after_external_call :
    envNoPineconeKey.pineconeApiKey = none ∧
      (handleBootstrapping envNoPineconeKey "case-index").1 =
        ⟨200, RespBody.success⟩ ∧
      ((handleBootstrapping envNoPineconeKey "case-index").2.filter
        ExtCall.isEmbedCall).length = 1 := by
  refine ⟨rfl, rfl, ?_⟩
  have hsp : splitText ['h', 'i'] = [['h', 'i']] := by
    rw [splitText]
    norm_num
  have hsplits : bootSplits envNoPineconeKey =
      [⟨['h', 'i'], rawToDocMeta ⟨"docs/a.pdf", none, none⟩⟩] := by
    have h2 : validDocs envNoPineconeKey =
        [⟨['h', 'i'], ⟨"docs/a.pdf", none, none⟩⟩] := by decide
    have h1 : mergedDocs envNoPineconeKey =
        [⟨['h', 'i'], rawToDocMeta ⟨"docs/a.pdf", none, none⟩⟩] := by
      rw [mergedDocs, h2]
      rfl
    rw [bootSplits, h1, splitDocuments]
    simp [hsp]
  have hsb : sliceBatches 5
      [(⟨['h', 'i'], rawToDocMeta ⟨"docs/a.pdf", none, none⟩⟩ : BDoc)] =
      [[⟨['h', 'i'], rawToDocMeta ⟨"docs/a.pdf", none, none⟩⟩]] := by
    rw [sliceBatches]
    norm_num
    rw [sliceBatches]
    rfl
  rw [handleBootstrapping_run envNoPineconeKey "case-index" rfl rfl
    (by decide)]
  show ((ExtCall.createIndex "case-index" :: ExtCall.hasVectors "case-index" ::
    processBatchesFrom envNoPineconeKey "case-index" 0 0
      (sliceBatches BATCH_SIZE (bootSplits envNoPineconeKey))).filter
        ExtCall.isEmbedCall).length = 1
  rw [show BATCH_SIZE = 5 from rfl, hsplits, hsb]
  simp only [processBatchesFrom]
  decide

/-- C3 (amended): the search route checks all three configuration values
before any external call — with any of them missing it answers 500 with an
empty call trace — while the ingestion path checks only the Pinecone key,
inside the per-batch try block after the embeddings call: with that key
missing no upsert is ever issued, but the run is not stopped before
external calls are made and the thrown error is caught per batch. -/
theorem missing_config_check_placement (env : Env) (q : List Char)
    (targetIndex : String) (hq : q ≠ [])
    (hmiss : env.pineconeApiKey = none ∨ env.pineconeIndexCfg = none ∨
      env.voyageApiKey = none) :
    searchPOST env (some q) =
        (⟨500, RespBody.error "Error searching for query"⟩, []) ∧
      (env.pineconeApiKey = none →
        ∀ c ∈ (handleBootstrapping env targetIndex).2,
          c.isUpsertCall = false) := by
  constructor
  · have hfal : queryFalsy (some q) = false := by
      cases q with
      | nil => exact absurd rfl hq
      | cons a t => rfl
    unfold searchPOST
    rw [hfal]
    have hff : ¬ (false = true) := by simp
    rw [if_neg hff]
    by_cases h1 : env.pineconeApiKey.isNone
    · rw [if_pos h1]
    · rw [if_neg h1]
      by_cases h2 : env.pineconeIndexCfg.isNone
      · rw [if_pos h2]
      · rw [if_neg h2]
        have h3 : env.voyageApiKey.isNone = true := by
          rcases hmiss with h | h | h
          · exact absurd (Option.isNone_iff_eq_none.2 h) h1
          · exact absurd (Option.isNone_iff_eq_none.2 h) h2
          · exact Option.isNone_iff_eq_none.2 h
        rw [if_pos h3]
  · intro hk
    exact handleBootstrapping_no_upsert env targetIndex hk

/-- C3 witness: the amended statement evaluated on the concrete
environment with the Pinecone key missing. -/
theorem missing_config_check_placement_witness :
    searchPOST envNoPineconeKey (some ['b']) =
        (⟨500, RespBody.error "Error searching for query"⟩, []) ∧
      (envNoPineconeKey.pineconeApiKey = none →
        ∀ c ∈ (handleBootstrapping envNoPineconeKey "case-index").2,
          c.isUpsertCall = false) :=
  missing_config_check_placement envNoPineconeKey ['b'] "case-index"
    (by decide) (Or.inl rfl)

/-- C6: a document whose trimmed text is empty or not within the length
bound is excluded from `validDocuments`, the input of chunking, and every
vector ever handed to an upsert call during the run carries valid trimmed
content within the bound — no invalid document contributes to the final
vector set. -/
theorem invalid_content_excluded (env : Env) (targetIndex : String)
    (d : RawDoc) (hd : isValidContent d.pageContent = false) :
    d ∉ validDocs env ∧
      ∀ c ∈ (handleBootstrapping env targetIndex).2, ∀ v ∈ c.upsertVecs,
        isValidContent v.metadata.pageContent = true := by
  constructor
  · intro hmem
    have hval := (List.mem_filter.1 hmem).2
    rw [hd] at hval
    exact absurd hval (by simp)
  · exact handleBootstrapping_upsert_valid env targetIndex

/-- A whitespace-only document: its trimmed content is empty. -/
def invalidDoc : RawDoc := ⟨[' '], ⟨"docs/b.pdf", none, none⟩⟩

/-- An environment loading one valid and one whitespace-only document. -/
def envMixed : Env :=
  { pineconeApiKey := some "pk", pineconeIndexCfg := some "case-index",
    voyageApiKey := some "vk", mmr := fun _ => none,
    documents := [⟨['h', 'i'], ⟨"docs/a.pdf", none, none⟩⟩, invalidDoc],
    dbMetadata := [], indexHasVectors := fun _ => false,
    setupFailure := none, uuid := fun _ => "u",
    embedOutcome := fun _ => EmbedOutcome.ok [[1]],
    upsertOk := fun _ _ => true }

/-- C6 witness: the whitespace-only document is excluded on the concrete
environment. -/
theorem invalid_content_excluded_witness :
    invalidDoc ∉ validDocs envMixed ∧
      ∀ c ∈ (handleBootstrapping envMixed "case-index").2, ∀ v ∈ c.upsertVecs,
        isValidContent v.metadata.pageContent = true :=
  invalid_content_excluded envMixed "case-index" invalidDoc (by decide)

/-- C8: with an index lacking vectors and documents present the run
returns success regardless of per-batch failures, every failure being
caught; the trace is the two setup calls followed by the batches processed
exactly once, in order, each issuing at most one embeddings call (no
retry); and a failing sub-batch upsert inside one batch only cuts that
batch's remaining sub-batches: the groups upserted before the failure stay
upserted (no rollback) and the failing attempt is the last call of that
batch's upsert run. -/
theorem batch_failure_logged_and_skipped (env : Env) (targetIndex : String)
    (hs : env.setupFailure = none)
    (hv : env.indexHasVectors targetIndex = false)
    (hd : env.documents.length ≠ 0)
    (ok : Nat → Bool) (groups : List (List Vector)) (k : Nat)
    (hk : k < groups.length) (hok : ∀ i, i < k → ok i = true)
    (hfail : ok k = false) :
    (handleBootstrapping env targetIndex).1 = ⟨200, RespBody.success⟩ ∧
      (handleBootstrapping env targetIndex).2 =
        ExtCall.createIndex targetIndex :: ExtCall.hasVectors targetIndex ::
          processBatchesFrom env targetIndex 0 0
            (sliceBatches BATCH_SIZE (bootSplits env)) ∧
      (∀ bi n b bs,
        processBatchesFrom env targetIndex bi n (b :: bs) =
          processBatch env targetIndex bi n b ++
            processBatchesFrom env targetIndex (bi + 1)
              (n + countValid b) bs) ∧
      (∀ bi n b,
        ((processBatch env targetIndex bi n b).filter
          ExtCall.isEmbedCall).length ≤ 1) ∧
      (upsertRun ok targetIndex 0 groups).1 =
          (groups.take (k + 1)).map (ExtCall.upsert targetIndex) ∧
      (upsertRun ok targetIndex 0 groups).2 = false := by
  have hrun := handleBootstrapping_run env targetIndex hs hv hd
  have hok0 : ∀ i, i < k → ok (0 + i) = true := by
    intro i hi
    rw [Nat.zero_add]
    exact hok i hi
  have hfail0 : ok (0 + k) = false := by
    rw [Nat.zero_add]
    exact hfail
  have hfl := upsertRun_fail ok targetIndex groups 0 k hk hok0 hfail0
  exact ⟨by rw [hrun], by rw [hrun], fun bi n b bs => rfl,
    fun bi n b => processBatch_embed_once env targetIndex bi n b,
    hfl.1, hfl.2⟩

/-- C8 witness: a concrete run with the second sub-batch upsert failing. -/
theorem batch_failure_logged_and_skipped_witness :
    (handleBootstrapping envMixed "case-index").1 =
        ⟨200, RespBody.success⟩ ∧
      (handleBootstrapping envMixed "case-index").2 =
        ExtCall.createIndex "case-index" :: ExtCall.hasVectors "case-index" ::
          processBatchesFrom envMixed "case-index" 0 0
            (sliceBatches BATCH_SIZE (bootSplits envMixed)) ∧
      (∀ bi n b bs,
        processBatchesFrom envMixed "case-index" bi n (b :: bs) =
          processBatch envMixed "case-index" bi n b ++
            processBatchesFrom envMixed "case-index" (bi + 1)
              (n + countValid b) bs) ∧
      (∀ bi n b,
        ((processBatch envMixed "case-index" bi n b).filter
          ExtCall.isEmbedCall).length ≤ 1) ∧
      (upsertRun (fun j => decide (j = 0)) "case-index" 0
            [[vecSample 0], [vecSample 1]]).1 =
          ([[vecSample 0], [vecSample 1]].take (1 + 1)).map
            (ExtCall.upsert "case-index") ∧
      (upsertRun (fun j => decide (j = 0)) "case-index" 0
        [[vecSample 0], [vecSample 1]]).2 = false :=
  batch_failure_logged_and_skipped envMixed "case-index" rfl rfl (by decide)
    (fun j => decide (j = 0)) [[vecSample 0], [vecSample 1]] 1 (by decide)
    (fun i hi => by
      have hi0 : i = 0 := by omega
      subst hi0
      rfl)
    (by decide)
